import Mathlib

/-!
Shallow embedding of `build.py` (ignition-script-library-builder): the
reference-rewriting engine that converts a standard python project layout
to an Ignition script-library layout and back.  Text is modelled as
`List Char`; Python string primitives (`str.split`, `str.replace`,
`str.strip`, `re.sub` with word boundaries) are given faithful executable
models, and the per-file forward/inverse transforms are translated line by
line from the source.
-/

namespace IgnitionBuild

abbrev Str := List Char

/-- The whitespace characters stripped by Python's `str.strip()`. -/
def isPySpace (c : Char) : Bool :=
  c = ' ' || c = '\t' || c = '\n' || c = '\r' || c = '\x0b' || c = '\x0c'

/-- Python `str.strip()`: remove leading and trailing whitespace. -/
def pyStrip (s : Str) : Str :=
  ((s.dropWhile isPySpace).reverse.dropWhile isPySpace).reverse

/-- `p.isPrefixOf s` as used for Python's `str.startswith`. -/
def startsW (p s : Str) : Bool := p.isPrefixOf s

/-- Whether the pattern `pat` occurs as a contiguous substring (Python's `in`). -/
def containsSeq (pat : Str) : Str → Bool
  | [] => pat.isPrefixOf []
  | c :: rest => pat.isPrefixOf (c :: rest) || containsSeq pat rest

/-- Helper: prepend a character onto the first piece of a split result. -/
def consHead (c : Char) : List Str → List Str
  | [] => [[c]]
  | h :: t => (c :: h) :: t

/-- Python `str.split(sep)` (leftmost, non-overlapping).  The `skip`
counter counts characters still to be consumed inside a matched
separator, which keeps the recursion structural. -/
def pySplitGo (sep : Str) : Nat → Str → List Str
  | _, [] => [[]]
  | 0, c :: rest =>
    if !sep.isEmpty && sep.isPrefixOf (c :: rest) then
      [] :: pySplitGo sep (sep.length - 1) rest
    else
      consHead c (pySplitGo sep 0 rest)
  | skip + 1, _ :: rest => pySplitGo sep skip rest

/-- Python `str.split(sep)`. -/
def pySplit (sep s : Str) : List Str := pySplitGo sep 0 s

/-- Python `str.replace(old, new)` (all occurrences): split on `old` and
rejoin with `new`. -/
def pyReplace (old new s : Str) : Str := List.intercalate new (pySplit old s)

/-- Python `str.replace(old, new, 1)` (first occurrence only). -/
def pyReplaceOne (old new s : Str) : Str :=
  match pySplit old s with
  | [] => s
  | [x] => x
  | x :: y :: rest => x ++ new ++ List.intercalate old (y :: rest)

/-- Splitting a text into lines, as Python's `code.split('\n')`. -/
def splitLines (s : Str) : List Str := pySplit ['\n'] s

/-- Rejoining lines, as Python's `'\n'.join(lines)`. -/
def joinLines (ls : List Str) : Str := List.intercalate ['\n'] ls

/-- `' ' * n`. -/
def spaces (n : Nat) : Str := List.replicate n ' '

/-- Split on every single whitespace character (pieces may be empty). -/
def splitAnyWs : Str → List Str
  | [] => [[]]
  | c :: rest =>
    if isPySpace c then [] :: splitAnyWs rest
    else consHead c (splitAnyWs rest)

/-- Python `str.split()` with no argument: split on whitespace runs and
discard empty pieces. -/
def splitWs (s : Str) : List Str := (splitAnyWs s).filter (fun t => !t.isEmpty)

/-- Python-3.7+ dict assignment `d[k] = v` on an insertion-ordered
association list: update in place if the key exists, else append. -/
def dictSet (k v : Str) : List (Str × Str) → List (Str × Str)
  | [] => [(k, v)]
  | (k₀, v₀) :: rest => if k₀ = k then (k₀, v) :: rest else (k₀, v₀) :: dictSet k v rest

/-- A word character for Python's regex `\b`/`\w` (ASCII). -/
def isWordChar (c : Char) : Bool := c.isAlphanum || c = '_'

/-- Word-ness of an optional character; out-of-range counts as non-word. -/
def isWordOpt : Option Char → Bool
  | none => false
  | some c => isWordChar c

/-- Whether the regex `\b<find>\b` (with `find` literal) matches at the
current position: `prev` is the preceding original character, `l` the rest
of the string. -/
def wordMatchAt (find : Str) (prev : Option Char) (l : Str) : Bool :=
  !find.isEmpty && find.isPrefixOf l
    && (isWordOpt prev != isWordOpt find.head?)
    && (isWordOpt (l.drop find.length).head? != isWordOpt find.getLast?)

/-- `re.sub(r'\b' + re.escape(find) + r'\b', repl, ·)`: leftmost,
non-overlapping whole-word substitution.  The `skip` counter consumes the
characters of a match already emitted as `repl`. -/
def wordSubGo (find repl : Str) : Nat → Option Char → Str → Str
  | 0, _, [] => []
  | 0, prev, c :: rest =>
    if wordMatchAt find prev (c :: rest) then
      repl ++ wordSubGo find repl (find.length - 1) (some c) rest
    else
      c :: wordSubGo find repl 0 (some c) rest
  | _ + 1, _, [] => []
  | skip + 1, _, c :: rest => wordSubGo find repl skip (some c) rest

/-- Whole-word regex substitution over one span of text. -/
def wordSub (find repl s : Str) : Str := wordSubGo find repl 0 none s

/-- Whether `\b<find>\b` matches anywhere in `s` after the optional
preceding character `prev`. -/
def hasWordOccGo (find : Str) : Option Char → Str → Bool
  | _, [] => false
  | prev, c :: rest => wordMatchAt find prev (c :: rest) || hasWordOccGo find (some c) rest

/-- Whether `s` contains a whole-word (boundary-delimited) occurrence of `find`. -/
def hasWordOcc (find s : Str) : Bool := hasWordOccGo find none s

/-- A single or double quote character. -/
def isQuoteChar (c : Char) : Bool := c = '\'' || c = '"'

/-- The index scanner of `split_statement_by_quoted_strings` (build.py
lines 186-205): walk the statement recording `(start, end)` index pairs of
quoted runs, with the quirky escape handling of the source reproduced
exactly.  `i` is the current index, the `Option Nat` is `start`, the
`Bool` is `in_escape`. -/
def quoteScanGo : Nat → Option Nat → Bool → Str → List (Nat × Nat)
  | _, _, _, [] => []
  | i, some s₀, false, c :: rest =>
    if c = '\\' then quoteScanGo (i + 1) (some s₀) true rest
    else if isQuoteChar c then (s₀, i) :: quoteScanGo (i + 1) none false rest
    else quoteScanGo (i + 1) (some s₀) false rest
  | i, some s₀, true, c :: rest =>
    if isQuoteChar c then quoteScanGo (i + 1) (some s₀) false rest
    else quoteScanGo (i + 1) (some s₀) true rest
  | i, none, esc, c :: rest =>
    if isQuoteChar c then quoteScanGo (i + 1) (some i) esc rest
    else quoteScanGo (i + 1) none esc rest

/-- Python slice `s[a:b]`. -/
def slice (s : Str) (a b : Nat) : Str := (s.drop a).take (b - a)

/-- Cut `s` into parts from the quoted index pairs (build.py lines
206-213): for each pair emit the unquoted run before it and the quoted run
itself, then the final tail. -/
def partsOfGo (s : Str) : Nat → List (Nat × Nat) → List Str
  | lastEnd, [] => [s.drop lastEnd]
  | lastEnd, (a, b) :: rest => slice s lastEnd a :: slice s a (b + 1) :: partsOfGo s (b + 1) rest

/-- `split_statement_by_quoted_strings` (build.py lines 181-214): split a
line into alternating unquoted/quoted spans; even indexes are unquoted. -/
def split_statement_by_quoted_strings (statement : Str) : List Str :=
  if !(statement.contains '\'' || statement.contains '"') then [statement]
  else partsOfGo statement 0 (quoteScanGo 0 none false statement)

/-- Ordering invariant on the scanner's index pairs: each pair starts no
earlier than `lo`, ends no earlier than it starts, and the next pair
starts after it. -/
def ChainFrom : Nat → List (Nat × Nat) → Prop
  | _, [] => True
  | lo, (a, b) :: rest => lo ≤ a ∧ a ≤ b ∧ ChainFrom (b + 1) rest

/-- Apply `f` to the elements at alternating positions of a list; `b`
says whether the current (first) position is one of them.  With `b = true`
this is "apply at even indexes", with `b = false` "apply at odd indexes",
as in the `enumerate`-and-parity loops of `replace_reference`. -/
def applyAlt (f : Str → Str) : Bool → List Str → List Str
  | _, [] => []
  | b, x :: xs => (if b then f x else x) :: applyAlt f (!b) xs

/-- Collect the elements at alternating positions of a list (the spans a
parity loop of `replace_reference` would substitute in). -/
def filterAlt : Bool → List Str → List Str
  | _, [] => []
  | b, x :: xs => (if b then [x] else []) ++ filterAlt (!b) xs

/-- The multi-line string delimiter. -/
def tq : Str := ['"', '"', '"']

/-- Substitute on the even (unquoted) sub-parts of a span, per
`split_statement_by_quoted_strings`, and rejoin (build.py lines 243-249
and 265-271). -/
def subEvenQuoted (find repl : Str) (part : Str) : Str :=
  (applyAlt (wordSub find repl) true (split_statement_by_quoted_strings part)).flatten

/-- Whether a line's stripped text starts with the comment marker. -/
def commentLine (l : Str) : Bool := startsW ['#'] (pyStrip l)

/-- One line of `replace_reference` (build.py lines 234-292): produce the
rewritten line given the carried multi-line-string state. -/
def replLine (find repl : Str) (st : Bool) (l : Str) : Str :=
  if st then
    List.intercalate tq (applyAlt (subEvenQuoted find repl) false (pySplit tq l))
  else if !commentLine l && containsSeq tq l then
    List.intercalate tq (applyAlt (subEvenQuoted find repl) true (pySplit tq l))
  else if commentLine l then l
  else (applyAlt (wordSub find repl) true (split_statement_by_quoted_strings l)).flatten

/-- The carried multi-line-string state after a line of
`replace_reference` (build.py lines 253-254 and 274-275). -/
def lineNextState (st : Bool) (l : Str) : Bool :=
  if st then
    if (pySplit tq l).length % 2 ≠ 1 then false else true
  else if !commentLine l && containsSeq tq l then
    if (pySplit tq l).length % 2 ≠ 1 then true else false
  else false

/-- The number of `"""` delimiters on a line, as the source observes it
through `line.split('"""')`. -/
def countTriple (l : Str) : Nat := (pySplit tq l).length - 1

/-- The line loop of `replace_reference`. -/
def replLinesGo (find repl : Str) : Bool → List Str → List Str
  | _, [] => []
  | st, l :: ls => replLine find repl st l :: replLinesGo find repl (lineNextState st l) ls

/-- `replace_reference` (build.py lines 217-294): whole-word substitution
over a multi-line text, skipping quoted strings, multi-line string blocks
and comments. -/
def replace_reference (code find repl : Str) : Str :=
  joinLines (replLinesGo find repl false (splitLines code))

/-- The CODE spans of one line: exactly the spans `replace_reference`
applies `pattern.sub` to, per branch. -/
def lineSpans (st : Bool) (l : Str) : List Str :=
  if st then
    ((filterAlt false (pySplit tq l)).map
      (fun p => filterAlt true (split_statement_by_quoted_strings p))).flatten
  else if !commentLine l && containsSeq tq l then
    ((filterAlt true (pySplit tq l)).map
      (fun p => filterAlt true (split_statement_by_quoted_strings p))).flatten
  else if commentLine l then []
  else filterAlt true (split_statement_by_quoted_strings l)

/-- All CODE spans of a text, threading the multi-line state. -/
def codeSpansGo : Bool → List Str → List Str
  | _, [] => []
  | st, l :: ls => lineSpans st l ++ codeSpansGo (lineNextState st l) ls

/-- All spans of `code` that `replace_reference` substitutes in. -/
def codeSpans (code : Str) : List Str := codeSpansGo false (splitLines code)

/-- One parsed import clause, as yielded by `get_imports` (build.py lines
45-66): `module` is empty for the `import a.b.c` shape and the dotted
module for the `from a.b import x` shape, `name` is the dotted name split
on `'.'`, `asname` the optional alias. -/
structure PyImport where
  module : List Str
  name : List Str
  asname : Option Str
deriving DecidableEq, Repr

/-- `'.'.join(m)`. -/
def dotted (m : List Str) : Str := List.intercalate ['.'] m

/-- A lexically valid Python identifier (the model does not track the
keyword list; directive tokens in this repository are plain names). -/
def validIdent : Str → Bool
  | [] => false
  | c :: rest => (c.isAlpha || c = '_') && rest.all (fun d => d.isAlphanum || d = '_')

/-- A valid dotted name: nonempty identifier segments joined by `'.'`. -/
def validDotted (t : Str) : Bool :=
  let segs := pySplit ['.'] t
  !segs.isEmpty && segs.all validIdent

/-- Parse every comma-piece of a directive; a failing piece is a
`SyntaxError` for the whole directive (the generator in `get_imports`
raises as soon as `ast.parse` fails). -/
def parsePieces (f : Str → Option PyImport) : List Str → Option (List PyImport)
  | [] => some []
  | p :: ps =>
    match f p with
    | none => none
    | some v =>
      match parsePieces f ps with
      | none => none
      | some vs => some (v :: vs)

/-- Parse one comma-piece of an `import a.b.c [as d]` directive. -/
def parsePieceImport (piece : Str) : Option PyImport :=
  match splitWs piece with
  | [n] => if validDotted n then some ⟨[], pySplit ['.'] n, none⟩ else none
  | [n, a, al] =>
    if a = "as".data ∧ validDotted n ∧ validIdent al then
      some ⟨[], pySplit ['.'] n, some al⟩
    else none
  | _ => none

/-- Parse one comma-piece of a `from m import x [as y]` directive. -/
def parsePieceFrom (m : List Str) (piece : Str) : Option PyImport :=
  match splitWs piece with
  | [n] => if validIdent n || n = "*".data then some ⟨m, [n], none⟩ else none
  | [n, a, al] =>
    if a = "as".data ∧ validIdent n ∧ validIdent al then some ⟨m, [n], some al⟩
    else none
  | _ => none

/-- Parse the name list of a `from` directive, allowing a parenthesized
list with an optional trailing comma as `ast` does. -/
def parseFromNames (m : List Str) (raw : Str) : Option (List PyImport) :=
  if raw.isEmpty then none
  else if raw.head? = some '(' ∧ raw.getLast? = some ')' then
    let inner := pyStrip ((raw.drop 1).dropLast)
    let ps := pySplit [','] inner
    let ps2 := if ps.getLast? = some ([] : Str) then ps.dropLast else ps
    if ps2.isEmpty then none else parsePieces (parsePieceFrom m) ps2
  else parsePieces (parsePieceFrom m) (pySplit [','] raw)

/-- Model of `get_imports` (build.py lines 45-66), i.e. of `ast.parse`
restricted to the directive lines this program feeds it: text after a
`'#'` is comment and ignored (so a comment-only or blank line parses to
zero imports), an `import a.b.c [as d], ...` line yields one clause per
comma-piece with empty `module`, a `from a.b import x [as y], ...` line
yields one clause per imported name, and anything else is a
`SyntaxError`, modelled as `none`. -/
def parseImports (s : Str) : Option (List PyImport) :=
  let core := pyStrip (s.takeWhile (fun c => c ≠ '#'))
  if core.isEmpty then some []
  else if startsW "import ".data core then
    let raw := pyStrip (core.drop 7)
    if raw.isEmpty then none
    else parsePieces parsePieceImport (pySplit [','] raw)
  else if startsW "from ".data core then
    let rest := pyStrip (core.drop 5)
    match splitWs rest with
    | [] => none
    | modTok :: _ =>
      if validDotted modTok then
        let afterMod := pyStrip (rest.drop modTok.length)
        if startsW "import ".data afterMod then
          parseFromNames (pySplit ['.'] modTok) (pyStrip (afterMod.drop 7))
        else none
      else none
  else none

/-- `is_import_statement` (build.py lines 69-83). -/
def is_import_statement (line : Str) (target_modules : List Str) : Bool :=
  target_modules.any (fun m =>
    startsW ("from ".data ++ m) line || startsW ("import ".data ++ m) line)

/-- `import_statement_to_aliases` (build.py lines 86-104); `none` models
the `SyntaxError` escaping from `get_imports`. -/
def import_statement_to_aliases (statement : Str) (target_module : Str) :
    Option (List Str) :=
  (parseImports statement).map (fun imps => imps.filterMap (fun imp =>
    let m := imp.module ++ imp.name
    if 1 < m.length ∧ m.headI = target_module then
      some ((match imp.asname with | none => m.getLastD [] | some a => a)
        ++ " = ".data ++ dotted m)
    else none))

/-- The replacement-recording loop of the forward pass (build.py lines
341-346): for each clause whose joined path has more than one segment and
whose root is a configured module, record `localName -> dotted path`. -/
def recordReplacements (mods : List Str) (imps : List PyImport)
    (reps : List (Str × Str)) : List (Str × Str) :=
  imps.foldl (fun d imp =>
    let m := imp.module ++ imp.name
    if 1 < m.length ∧ m.headI ∈ mods then
      dictSet (match imp.asname with | none => m.getLastD [] | some a => a) (dotted m) d
    else d) reps

/-- The replacement-recording loop of the inverse pass (build.py lines
389-394), which compares the root segment against the single matched
target module. -/
def recordTarget (target : Str) (imps : List PyImport)
    (reps : List (Str × Str)) : List (Str × Str) :=
  imps.foldl (fun d imp =>
    let m := imp.module ++ imp.name
    if 1 < m.length ∧ m.headI = target then
      dictSet (match imp.asname with | none => m.getLastD [] | some a => a) (dotted m) d
    else d) reps

/-- The reserved host-API prefix. -/
def sysPrefix : Str := "import system.".data

/-- The modelled root cause carried by a `SyntaxError` raised from
`ast.parse` (the source formats `traceback.format_exc()` into the
re-raised error; its text is opaque to the program). -/
def syntaxCause : Str := "SyntaxError: invalid syntax".data

/-- Whether the stripped line ends with a continuation backslash. -/
def endsBackslash (l : Str) : Bool := (pyStrip l).getLast? = some '\\'

/-- Processing of one logical (possibly merged) line of the forward pass
with no pending multi-line import (build.py lines 330-346): returns the
emitted lines, the new `multi_line_import` state and the updated
replacement dict. -/
def fwdCore (mods : List Str) (reps : List (Str × Str)) (l : Str) :
    Except Str (List Str × Option Str × List (Str × Str)) :=
  if is_import_statement (pyStrip l) mods then
    if endsBackslash l then .ok ([], some ((pyStrip l).dropLast), reps)
    else
      match parseImports (pyStrip l) with
      | none => .error syntaxCause
      | some imps =>
        .ok (["# ".data ++ pyStrip l], none, recordReplacements mods imps reps)
  else .ok ([l], none, reps)

/-- The line loop of `replace_import_statements_with_direct_references`
(build.py lines 313-349), threading the `multi_line_import` state and the
replacement dict. -/
def fwdLines (mods : List Str) : Option Str → List (Str × Str) → List Str →
    Except Str (List Str × List (Str × Str))
  | _, reps, [] => .ok ([], reps)
  | mli, reps, l :: ls =>
    if startsW sysPrefix l then
      match fwdLines mods mli reps ls with
      | .error e => .error e
      | .ok (outs, r) => .ok (("# ".data ++ pyStrip l) :: outs, r)
    else
      match mli with
      | some acc =>
        if endsBackslash l then
          fwdLines mods (some (acc ++ (pyStrip l).dropLast)) reps ls
        else
          match fwdCore mods reps (acc ++ pyStrip l) with
          | .error e => .error e
          | .ok (emit, mli', reps') =>
            match fwdLines mods mli' reps' ls with
            | .error e => .error e
            | .ok (outs, r) => .ok (emit ++ outs, r)
      | none =>
        match fwdCore mods reps l with
        | .error e => .error e
        | .ok (emit, mli', reps') =>
          match fwdLines mods mli' reps' ls with
          | .error e => .error e
          | .ok (outs, r) => .ok (emit ++ outs, r)

/-- `replace_import_statements_with_direct_references` (build.py lines
297-357): comment out matched directives, collect the alias mapping, then
substitute every recorded local name by its fully-qualified path. -/
def replace_import_statements_with_direct_references (code : Str)
    (source_modules : List Str) : Except Str Str :=
  match fwdLines source_modules none [] (splitLines code) with
  | .error e => .error e
  | .ok (outs, reps) =>
    .ok (reps.foldl (fun txt p => replace_reference txt p.1 p.2) (joinLines outs))

/-- The first configured module whose directive prefix matches the
uncommented line (the `for target_module ... break` loop of the inverse
pass, build.py lines 383-396). -/
def findModule (mods : List Str) (un : Str) : Option Str :=
  mods.find? (fun m =>
    startsW ("from ".data ++ m) un || startsW ("import ".data ++ m) un)

/-- The line loop of
`undo_replace_import_statements_with_direct_references` (build.py lines
375-401).  Note: faithful to the source, the replacement dict is rebuilt
from `parseImports (pyStrip l)` where `l` is the still-commented line
(build.py line 389). -/
def undoLines (mods : List Str) : List (Str × Str) → List Str →
    Except Str (List Str × List (Str × Str))
  | reps, [] => .ok ([], reps)
  | reps, l :: ls =>
    if startsW "# ".data l then
      let un := (pyStrip l).drop 2
      if startsW sysPrefix un then
        match undoLines mods reps ls with
        | .error e => .error e
        | .ok (outs, r) => .ok (un :: outs, r)
      else
        match findModule mods un with
        | some m =>
          match parseImports (pyStrip l) with
          | none => .error syntaxCause
          | some imps =>
            match undoLines mods (recordTarget m imps reps) ls with
            | .error e => .error e
            | .ok (outs, r) => .ok (un :: outs, r)
        | none =>
          match undoLines mods reps ls with
          | .error e => .error e
          | .ok (outs, r) => .ok (l :: outs, r)
    else
      match undoLines mods reps ls with
      | .error e => .error e
      | .ok (outs, r) => .ok (l :: outs, r)

/-- `undo_replace_import_statements_with_direct_references` (build.py
lines 360-409): uncomment matched directives, rebuild the alias mapping,
then substitute each fully-qualified path back to its local name. -/
def undo_replace_import_statements_with_direct_references (code : Str)
    (source_modules : List Str) : Except Str Str :=
  match undoLines source_modules [] (splitLines code) with
  | .error e => .error e
  | .ok (outs, reps) =>
    .ok (reps.foldl (fun txt p => replace_reference txt p.2 p.1) (joinLines outs))

/-- The forward coding-declaration rewrite (build.py line 498). -/
def codingFwd (code : Str) : Str :=
  pyReplaceOne "# coding=".data "# CODING=".data code

/-- The inverse coding-declaration restore (build.py line 440). -/
def codingRev (code : Str) : Str :=
  pyReplaceOne "# CODING=".data "# coding=".data code

/-- The per-file forward transform of `build.process_py_file` (build.py
lines 492-510): coding rewrite, import replacement, optional space-to-tab
folding. -/
def forwardFileText (code : Str) (mods : List Str) (charToTab : Bool)
    (tabSize : Nat) : Except Str Str :=
  match replace_import_statements_with_direct_references (codingFwd code) mods with
  | .error e => .error e
  | .ok t => .ok (if charToTab then pyReplace (spaces tabSize) ['\t'] t else t)

/-- The per-file inverse transform of `reverse_build.process_directory`
(build.py lines 436-452): coding restore, import undo, optional
tab-to-space unfolding. -/
def reverseFileText (code : Str) (mods : List Str) (charToTab : Bool)
    (tabSize : Nat) : Except Str Str :=
  match undo_replace_import_statements_with_direct_references (codingRev code) mods with
  | .error e => .error e
  | .ok t => .ok (if charToTab then pyReplace ['\t'] (spaces tabSize) t else t)

/-- `process_py_file` with the error re-raise of build.py lines 504-507:
a `SyntaxError` is re-raised with the traceback text and the offending
path. -/
def process_py_file (path code : Str) (mods : List Str) (charToTab : Bool)
    (tabSize : Nat) : Except Str Str :=
  match forwardFileText code mods charToTab tabSize with
  | .error cause => .error (cause ++ ": ".data ++ path)
  | .ok t => .ok t

/-- The file loop of `build` (build.py lines 525-538) over an abstract
batch of `(path, contents)` pairs: each file is processed in order and an
uncaught exception stops the batch, keeping the outputs already
produced. -/
def buildBatch (mods : List Str) (charToTab : Bool) (tabSize : Nat) :
    List (Str × Str) → List (Str × Str) × Option Str
  | [] => ([], none)
  | (p, c) :: rest =>
    match process_py_file p c mods charToTab tabSize with
    | .error e => ([], some e)
    | .ok o =>
      let (outs, err) := buildBatch mods charToTab tabSize rest
      ((p, o) :: outs, err)

/-! ### Lemmas about the split/join primitives -/

theorem consHead_ne_nil (c : Char) (R : List Str) : consHead c R ≠ [] := by
  cases R <;> simp [consHead]

theorem pySplitGo_ne_nil (sep : Str) : ∀ (skip : Nat) (s : Str),
    pySplitGo sep skip s ≠ [] := by
  intro skip s
  induction s generalizing skip with
  | nil => simp [pySplitGo]
  | cons c rest ih =>
    cases skip with
    | zero =>
      simp only [pySplitGo]
      split
      · simp
      · exact consHead_ne_nil _ _
    | succ k => simpa [pySplitGo] using ih k

theorem pySplitGo_skip (sep : Str) : ∀ (j : Nat) (s : Str),
    pySplitGo sep j s = pySplitGo sep 0 (s.drop j) := by
  intro j
  induction j with
  | zero => intro s; simp
  | succ k ih =>
    intro s
    cases s with
    | nil => simp [pySplitGo]
    | cons c rest => simpa [pySplitGo] using ih rest

theorem intercalate_singleton (sep x : Str) : List.intercalate sep [x] = x := by
  simp [List.intercalate]

theorem intercalate_cons₂ (sep x y : Str) (t : List Str) :
    List.intercalate sep (x :: y :: t) = x ++ sep ++ List.intercalate sep (y :: t) := by
  simp [List.intercalate, List.intersperse_cons_cons, List.append_assoc]

theorem intercalate_consHead (sep : Str) (c : Char) (R : List Str) (h : R ≠ []) :
    List.intercalate sep (consHead c R) = c :: List.intercalate sep R := by
  cases R with
  | nil => exact absurd rfl h
  | cons y t =>
    cases t with
    | nil => simp [consHead, intercalate_singleton]
    | cons z t' => simp [consHead, intercalate_cons₂]

theorem intercalate_pySplit (sep s : Str) :
    List.intercalate sep (pySplit sep s) = s := by
  have H : ∀ (n : Nat) (s : Str), s.length ≤ n →
      List.intercalate sep (pySplit sep s) = s := by
    intro n
    induction n with
    | zero =>
      intro s hs
      have : s = [] := List.eq_nil_of_length_eq_zero (Nat.le_zero.mp hs)
      subst this
      simp [pySplit, pySplitGo, intercalate_singleton]
    | succ n ih =>
      intro s hs
      cases s with
      | nil => simp [pySplit, pySplitGo, intercalate_singleton]
      | cons c rest =>
        simp only [pySplit, pySplitGo]
        split
        · rename_i h
          have hne : sep ≠ [] := by
            intro hx
            simp [hx] at h
          have hpre : sep <+: (c :: rest) := by
            have := (Bool.and_eq_true _ _).mp h |>.2
            exact List.isPrefixOf_iff_prefix.mp this
          rw [pySplitGo_skip]
          have hlen : (rest.drop (sep.length - 1)).length ≤ n := by
            have := List.length_drop (sep.length - 1) rest
            have hr : rest.length ≤ n := by
              simpa using Nat.le_of_succ_le_succ hs
            omega
          have hrec := ih (rest.drop (sep.length - 1)) hlen
          have hR := pySplitGo_ne_nil sep 0 (rest.drop (sep.length - 1))
          cases hRl : pySplitGo sep 0 (rest.drop (sep.length - 1)) with
          | nil => exact absurd hRl hR
          | cons y t =>
            rw [intercalate_cons₂]
            have : List.intercalate sep (y :: t) = rest.drop (sep.length - 1) := by
              rw [← hRl]; exact hrec
            rw [this]
            have hdec : (c :: rest).drop sep.length = rest.drop (sep.length - 1) := by
              have hpos : 1 ≤ sep.length := by
                cases sep with
                | nil => exact absurd rfl hne
                | cons _ _ => simp
              obtain ⟨k, hk⟩ : ∃ k, sep.length = k + 1 := ⟨sep.length - 1, by omega⟩
              rw [hk]
              simp [List.drop_succ_cons, hk]
            have := List.prefix_iff_eq_append.mp hpre
            rw [hdec] at this
            simpa using this
        · rename_i h
          have hR := pySplitGo_ne_nil sep 0 rest
          rw [intercalate_consHead sep c _ hR]
          have hr : rest.length ≤ n := by simpa using Nat.le_of_succ_le_succ hs
          have := ih rest hr
          simp only [pySplit] at this
          rw [this]
  exact H s.length s le_rfl

theorem joinLines_splitLines (s : Str) : joinLines (splitLines s) = s :=
  intercalate_pySplit ['\n'] s

theorem pySplit_of_not_contains (sep s : Str) (h : containsSeq sep s = false) :
    pySplit sep s = [s] := by
  induction s with
  | nil => simp [pySplit, pySplitGo]
  | cons c rest ih =>
    simp only [containsSeq, Bool.or_eq_false_iff] at h
    simp only [pySplit, pySplitGo]
    split
    · rename_i hc
      rw [h.1] at hc
      simp at hc
    · rw [show pySplitGo sep 0 rest = pySplit sep rest from rfl, ih h.2]
      simp [consHead]

theorem pySplit_char_append (ch : Char) (x y : Str) (hx : ∀ c ∈ x, c ≠ ch) :
    pySplit [ch] (x ++ ch :: y) = x :: pySplit [ch] y := by
  induction x with
  | nil =>
    simp only [List.nil_append, pySplit, pySplitGo]
    rw [if_pos]
    · simp [pySplitGo_skip]
    · simp [List.isPrefixOf]
  | cons c x' ih =>
    simp only [List.cons_append, pySplit, pySplitGo]
    rw [if_neg]
    · have := ih (fun d hd => hx d (List.mem_cons_of_mem _ hd))
      simp only [pySplit] at this
      simp only [List.append_eq]
      rw [this]
      simp [consHead]
    · have : c ≠ ch := hx c (List.mem_cons_self _ _)
      simp [List.isPrefixOf]
      intro h
      exact absurd h.symm this

/-! ### The quote scanner rebuilds its input -/

theorem ChainFrom.mono {lo lo' : Nat} {l : List (Nat × Nat)}
    (h : ChainFrom lo' l) (hle : lo ≤ lo') : ChainFrom lo l := by
  cases l with
  | nil => trivial
  | cons p rest =>
    obtain ⟨a, b⟩ := p
    obtain ⟨h1, h2, h3⟩ := h
    exact ⟨Nat.le_trans hle h1, h2, h3⟩

theorem quoteScanGo_chain : ∀ (l : Str) (i : Nat) (st : Option Nat) (esc : Bool),
    (∀ s₀, st = some s₀ → s₀ ≤ i) →
    ChainFrom (match st with | some s₀ => s₀ | none => i) (quoteScanGo i st esc l) := by
  intro l
  induction l with
  | nil => intro i st esc _; cases st <;> simp [quoteScanGo] <;> trivial
  | cons c rest ih =>
    intro i st esc hst
    match st, esc with
    | some s₀, false =>
      have hs₀ : s₀ ≤ i := hst s₀ rfl
      simp only [quoteScanGo]
      split
      · exact ih (i + 1) (some s₀) true (fun x hx => by cases hx; omega)
      · split
        · refine ⟨le_rfl, hs₀, ?_⟩
          exact ih (i + 1) none false (fun x hx => by cases hx)
        · exact ih (i + 1) (some s₀) false (fun x hx => by cases hx; omega)
    | some s₀, true =>
      have hs₀ : s₀ ≤ i := hst s₀ rfl
      simp only [quoteScanGo]
      split
      · exact ih (i + 1) (some s₀) false (fun x hx => by cases hx; omega)
      · exact ih (i + 1) (some s₀) true (fun x hx => by cases hx; omega)
    | none, esc =>
      simp only [quoteScanGo]
      split
      · exact ih (i + 1) (some i) esc (fun x hx => by cases hx; omega)
      · exact ChainFrom.mono (ih (i + 1) none esc (fun x hx => by cases hx))
          (Nat.le_succ i)

theorem slice_append_drop (s : Str) (a b : Nat) (h : a ≤ b) :
    slice s a b ++ s.drop b = s.drop a := by
  unfold slice
  have h1 : (s.drop a).take (b - a) ++ (s.drop a).drop (b - a) = s.drop a :=
    List.take_append_drop _ _
  have h2 : (s.drop a).drop (b - a) = s.drop b := by
    rw [List.drop_drop]
    congr 1
    omega
  rw [h2] at h1
  exact h1

theorem partsOfGo_flatten (s : Str) : ∀ (idxs : List (Nat × Nat)) (lastEnd : Nat),
    ChainFrom lastEnd idxs → (partsOfGo s lastEnd idxs).flatten = s.drop lastEnd := by
  intro idxs
  induction idxs with
  | nil => intro lastEnd _; simp [partsOfGo]
  | cons p rest ih =>
    intro lastEnd hch
    obtain ⟨a, b⟩ := p
    obtain ⟨h1, h2, h3⟩ := hch
    simp only [partsOfGo, List.flatten_cons]
    rw [ih (b + 1) h3]
    rw [← List.append_assoc]
    rw [show slice s lastEnd a ++ slice s a (b + 1) ++ s.drop (b + 1)
        = slice s lastEnd a ++ (slice s a (b + 1) ++ s.drop (b + 1)) from
      List.append_assoc _ _ _]
    rw [slice_append_drop s a (b + 1) (Nat.le_succ_of_le h2)]
    exact slice_append_drop s lastEnd a h1

theorem split_quoted_flatten (s : Str) :
    (split_statement_by_quoted_strings s).flatten = s := by
  unfold split_statement_by_quoted_strings
  split
  · simp
  · have hch := quoteScanGo_chain s 0 none false (fun x hx => by cases hx)
    simpa using partsOfGo_flatten s (quoteScanGo 0 none false s) 0 hch

theorem split_quoted_ne_nil (s : Str) :
    split_statement_by_quoted_strings s ≠ [] := by
  unfold split_statement_by_quoted_strings
  split
  · simp
  · cases h : quoteScanGo 0 none false s with
    | nil => simp [partsOfGo]
    | cons p rest => obtain ⟨a, b⟩ := p; simp [partsOfGo]

/-- C10: for every input string, the span list returned by
`split_statement_by_quoted_strings` is non-empty and concatenates back to
the input exactly — the quote scanner never drops, duplicates, or
reorders a character. -/
theorem c10_split_spans_rebuild (s : Str) :
    split_statement_by_quoted_strings s ≠ [] ∧
    (split_statement_by_quoted_strings s).flatten = s :=
  ⟨split_quoted_ne_nil s, split_quoted_flatten s⟩

/-! ### Whole-word substitution lemmas -/

theorem wordSubGo_of_no_occ (find repl : Str) : ∀ (s : Str) (prev : Option Char),
    hasWordOccGo find prev s = false → wordSubGo find repl 0 prev s = s := by
  intro s
  induction s with
  | nil => intro prev _; rfl
  | cons c rest ih =>
    intro prev h
    simp only [hasWordOccGo, Bool.or_eq_false_iff] at h
    simp only [wordSubGo]
    rw [h.1, if_neg (by simp : ¬(false = true))]
    rw [ih (some c) h.2]

theorem wordSub_of_no_occ (find repl s : Str) (h : hasWordOcc find s = false) :
    wordSub find repl s = s :=
  wordSubGo_of_no_occ find repl s none h

theorem applyAlt_of_id (f : Str → Str) : ∀ (l : List Str) (b : Bool),
    (∀ x ∈ filterAlt b l, f x = x) → applyAlt f b l = l := by
  intro l
  induction l with
  | nil => intro b _; rfl
  | cons x xs ih =>
    intro b h
    have hx : ∀ y ∈ filterAlt (!b) xs, f y = y := by
      intro y hy
      exact h y (by simp [filterAlt]; right; exact hy)
    simp only [applyAlt]
    rw [ih (!b) hx]
    cases b with
    | true =>
      have : f x = x := h x (by simp [filterAlt])
      simp [this]
    | false => simp

theorem subEvenQuoted_of_no_occ (find repl p : Str)
    (h : ∀ sp ∈ filterAlt true (split_statement_by_quoted_strings p),
      hasWordOcc find sp = false) :
    subEvenQuoted find repl p = p := by
  unfold subEvenQuoted
  rw [applyAlt_of_id _ _ _ (fun x hx => wordSub_of_no_occ find repl x (h x hx))]
  exact split_quoted_flatten p

theorem replLine_of_no_occ (find repl : Str) (st : Bool) (l : Str)
    (h : ∀ sp ∈ lineSpans st l, hasWordOcc find sp = false) :
    replLine find repl st l = l := by
  unfold replLine
  unfold lineSpans at h
  by_cases hst : st = true
  · rw [if_pos hst] at h ⊢
    rw [applyAlt_of_id]
    · exact intercalate_pySplit tq l
    · intro p hp
      refine subEvenQuoted_of_no_occ find repl p (fun sp hsp => h sp ?_)
      exact List.mem_flatten.mpr ⟨_, List.mem_map_of_mem _ hp, hsp⟩
  · rw [if_neg hst] at h ⊢
    by_cases hcond : (!commentLine l && containsSeq tq l) = true
    · rw [if_pos hcond] at h ⊢
      rw [applyAlt_of_id]
      · exact intercalate_pySplit tq l
      · intro p hp
        refine subEvenQuoted_of_no_occ find repl p (fun sp hsp => h sp ?_)
        exact List.mem_flatten.mpr ⟨_, List.mem_map_of_mem _ hp, hsp⟩
    · rw [if_neg hcond] at h ⊢
      by_cases hcom : commentLine l = true
      · rw [if_pos hcom]
      · rw [if_neg hcom] at h ⊢
        rw [applyAlt_of_id _ _ _ (fun x hx => wordSub_of_no_occ find repl x (h x hx))]
        exact split_quoted_flatten l

theorem replLinesGo_of_no_occ (find repl : Str) : ∀ (lines : List Str) (st : Bool),
    (∀ sp ∈ codeSpansGo st lines, hasWordOcc find sp = false) →
    replLinesGo find repl st lines = lines := by
  intro lines
  induction lines with
  | nil => intro st _; rfl
  | cons l ls ih =>
    intro st h
    simp only [codeSpansGo] at h
    simp only [replLinesGo]
    rw [replLine_of_no_occ find repl st l
      (fun sp hsp => h sp (List.mem_append_left _ hsp))]
    rw [ih (lineNextState st l)
      (fun sp hsp => h sp (List.mem_append_right _ hsp))]

/-- C3: if every whole-word occurrence of `x` in the text lies inside a
quoted string literal, a multi-line string block, or a comment — i.e.
none of the CODE spans the scanner produces contains a whole-word
occurrence of `x` — then `replace_reference` returns the text
unchanged. -/
theorem c3_literal_safety (code x y : Str)
    (h : ∀ sp ∈ codeSpans code, hasWordOcc x sp = false) :
    replace_reference code x y = code := by
  unfold replace_reference
  rw [replLinesGo_of_no_occ x y _ false h]
  exact joinLines_splitLines code

/-- Witness for C3 at a concrete text where `foo` occurs only inside a
quoted literal, a comment, and a multi-line string block. -/
theorem c3_literal_safety_witness :
    replace_reference
      "s = 'foo x'\n# foo\nt = \"\"\"foo\nfoo\"\"\" + y\nz = 1".data
      "foo".data "bar".data
      = "s = 'foo x'\n# foo\nt = \"\"\"foo\nfoo\"\"\" + y\nz = 1".data :=
  c3_literal_safety _ _ _ (by decide)

/-- C5: the substitutor rewrites only whole-identifier occurrences:
`foo -> bar` leaves `foobar` untouched and rewrites `foo.baz` to
`bar.baz`, and a text with no whole-word occurrence of the pattern is
never changed (no partial match inside a longer identifier is
rewritten). -/
theorem c5_whole_word :
    replace_reference "x = foobar + foo.baz".data "foo".data "bar".data
      = "x = foobar + bar.baz".data ∧
    ∀ (find repl s : Str), hasWordOcc find s = false → wordSub find repl s = s :=
  ⟨by decide, fun find repl s h => wordSub_of_no_occ find repl s h⟩

/-- Witness for C5: `foo` occurs in `xfoobar` only inside a longer
identifier, and the substitution leaves it unchanged. -/
theorem c5_whole_word_witness :
    hasWordOcc "foo".data "y = xfoobar".data = false ∧
    wordSub "foo".data "bar".data "y = xfoobar".data = "y = xfoobar".data :=
  ⟨by decide, c5_whole_word.2 _ _ _ (by decide)⟩

/-- C9 counterexample: a line whose stripped text starts with the comment
marker and that contains an odd number of multi-line delimiters does NOT
toggle the carried state when the scanner is outside a multi-line
literal, contradicting the claim's unconditional toggle. -/
theorem c9_toggle_cex :
    countTriple "# \"\"\"".data = 1 ∧
    lineNextState false "# \"\"\"".data = false := by
  constructor
  · decide
  · decide

/-- C9 (amended): in `replace_reference`'s line scanner, when the scanner
is inside a multi-line literal or the line is not a comment line, a line
toggles the carried state exactly when its total `\"\"\"` count is odd
(an even count — including a block opened and closed on the same line —
leaves it unchanged); a comment line encountered outside a multi-line
literal leaves the state off regardless of its delimiter count. -/
theorem c9_toggle_amended (st : Bool) (l : Str) :
    (st = true ∨ commentLine l = false →
      lineNextState st l = (st != decide (countTriple l % 2 = 1))) ∧
    (commentLine l = true → lineNextState false l = false) := by
  constructor
  · intro h
    have hlen : 1 ≤ (pySplit tq l).length := by
      have := pySplitGo_ne_nil tq 0 l
      cases hx : pySplitGo tq 0 l with
      | nil => exact absurd hx this
      | cons a t => simp [pySplit, hx]
    unfold lineNextState countTriple
    cases st with
    | true =>
      simp only [if_true]
      by_cases hn : (pySplit tq l).length % 2 = 1
      · have h1 : ¬(((pySplit tq l).length - 1) % 2 = 1) := by omega
        simp [hn, h1]
      · have h1 : ((pySplit tq l).length - 1) % 2 = 1 := by omega
        simp [hn, h1]
    | false =>
      have hcom : commentLine l = false := by
        cases h with
        | inl h => exact absurd h (by simp)
        | inr h => exact h
      simp only [if_false, Bool.false_eq_true, hcom, Bool.not_false, Bool.true_and]
      by_cases hc : containsSeq tq l = true
      · simp only [hc, if_true]
        by_cases hn : (pySplit tq l).length % 2 = 1
        · have h1 : ¬(((pySplit tq l).length - 1) % 2 = 1) := by omega
          simp [hn, h1]
        · have h1 : ((pySplit tq l).length - 1) % 2 = 1 := by omega
          simp [hn, h1]
      · have hc' : containsSeq tq l = false := by simpa using hc
        have : pySplit tq l = [l] := pySplit_of_not_contains tq l hc'
        simp [hc', this]
  · intro h
    unfold lineNextState
    simp [h]

/-- Witness for C9 (amended): a non-comment line opening a block toggles
the state on, and a comment line outside a block leaves it off. -/
theorem c9_toggle_amended_witness :
    lineNextState true "x\"\"\"".data
      = (true != decide (countTriple "x\"\"\"".data % 2 = 1)) ∧
    lineNextState false "# a".data = false :=
  ⟨(c9_toggle_amended true _).1 (Or.inl rfl),
   (c9_toggle_amended false "# a".data).2 (by decide)⟩

/-! ### Identifier character classes and strip/split lemmas -/

theorem identChar_ne {d : Char} (h : (d.isAlphanum || d = '_' || d = '.') = true)
    {ch : Char} (hch : (ch.isAlphanum || ch = '_' || ch = '.') = false) : d ≠ ch := by
  intro he
  subst he
  rw [h] at hch
  cases hch

theorem identChar_not_space {d : Char}
    (h : (d.isAlphanum || d = '_' || d = '.') = true) : isPySpace d = false := by
  by_contra hx
  have hx' : isPySpace d = true := by
    cases hq : isPySpace d with
    | true => rfl
    | false => exact absurd hq hx
  simp only [isPySpace, Bool.or_eq_true, decide_eq_true_eq] at hx'
  rcases hx' with ((((h1 | h1) | h1) | h1) | h1) | h1 <;> subst h1 <;> revert h <;> decide

theorem validIdent_mem {t : Str} (h : validIdent t = true) :
    ∀ d ∈ t, (d.isAlphanum || d = '_' || d = '.') = true := by
  intro d hd
  cases t with
  | nil => cases hd
  | cons c rest =>
    simp only [validIdent, Bool.and_eq_true] at h
    rcases List.mem_cons.mp hd with he | he
    · subst he
      rcases Bool.or_eq_true_iff.mp h.1 with h1 | h1
      · simp [Char.isAlphanum, h1]
      · simp [h1]
    · have := List.all_eq_true.mp h.2 d he
      rcases Bool.or_eq_true_iff.mp this with h1 | h1 <;> simp [h1]

theorem validIdent_ne_nil {t : Str} (h : validIdent t = true) : t ≠ [] := by
  intro he
  subst he
  exact absurd h (by decide)

theorem mem_of_getLast? {s : Str} {c : Char} (h : s.getLast? = some c) : c ∈ s := by
  obtain ⟨ys, hys⟩ := List.getLast?_eq_some_iff.mp h
  subst hys
  exact List.mem_append_right _ (List.mem_singleton_self c)

theorem dropWhile_eq_self_of_head (p : Char → Bool) (s : Str)
    (h : ∀ c, s.head? = some c → p c = false) : s.dropWhile p = s := by
  cases s with
  | nil => rfl
  | cons c rest => simp [List.dropWhile_cons, h c rfl]

theorem pyStrip_eq_self (s : Str)
    (hh : ∀ c, s.head? = some c → isPySpace c = false)
    (hl : ∀ c, s.getLast? = some c → isPySpace c = false) : pyStrip s = s := by
  unfold pyStrip
  rw [dropWhile_eq_self_of_head _ _ hh]
  rw [dropWhile_eq_self_of_head _ _ (fun c hc => hl c (by rwa [← List.head?_reverse]))]
  exact List.reverse_reverse s

theorem pyStrip_cons_space (c : Char) (hc : isPySpace c = true) (s : Str) :
    pyStrip (c :: s) = pyStrip s := by
  unfold pyStrip
  rw [List.dropWhile_cons, if_pos hc]

theorem containsSeq_single_false (ch : Char) (s : Str) (h : ∀ d ∈ s, d ≠ ch) :
    containsSeq [ch] s = false := by
  induction s with
  | nil => rfl
  | cons c rest ih =>
    simp only [containsSeq, Bool.or_eq_false_iff]
    constructor
    · have : c ≠ ch := h c (List.mem_cons_self _ _)
      simp [List.isPrefixOf]
      intro he
      exact absurd he.symm this
    · exact ih (fun d hd => h d (List.mem_cons_of_mem _ hd))

theorem splitAnyWs_token (t : Str) (ht : ∀ c ∈ t, isPySpace c = false) :
    splitAnyWs t = [t] := by
  induction t with
  | nil => rfl
  | cons c rest ih =>
    simp only [splitAnyWs, ht c (List.mem_cons_self _ _)]
    rw [if_neg (by simp)]
    rw [ih (fun d hd => ht d (List.mem_cons_of_mem _ hd))]
    rfl

theorem splitAnyWs_token_append (t r : Str) (c : Char) (hc : isPySpace c = true)
    (ht : ∀ d ∈ t, isPySpace d = false) :
    splitAnyWs (t ++ c :: r) = t :: splitAnyWs r := by
  induction t with
  | nil => simp [splitAnyWs, hc]
  | cons d t' ih =>
    simp only [List.cons_append, splitAnyWs, ht d (List.mem_cons_self _ _),
      List.append_eq]
    rw [if_neg (by simp)]
    rw [ih (fun e he => ht e (List.mem_cons_of_mem _ he))]
    rfl

theorem splitWs_token (t : Str) (ht : ∀ c ∈ t, isPySpace c = false)
    (hne : t ≠ []) : splitWs t = [t] := by
  unfold splitWs
  rw [splitAnyWs_token t ht]
  simp [hne]

theorem splitWs_token_append (t r : Str) (c : Char) (hc : isPySpace c = true)
    (ht : ∀ d ∈ t, isPySpace d = false) (hne : t ≠ []) :
    splitWs (t ++ c :: r) = t :: splitWs r := by
  unfold splitWs
  rw [splitAnyWs_token_append t r c hc ht]
  simp [hne]

theorem dotted₂ (a b : Str) : dotted [a, b] = a ++ '.' :: b := by
  simp [dotted, intercalate_cons₂, intercalate_singleton]

theorem dotted₃ (a b c : Str) : dotted [a, b, c] = a ++ '.' :: (b ++ '.' :: c) := by
  simp [dotted, intercalate_cons₂, intercalate_singleton, List.append_assoc]

/-! ### The reference extractor on the two directive shapes -/

theorem parseImports_import_dotted (r : Str)
    (hch : ∀ d ∈ r, (d.isAlphanum || d = '_' || d = '.') = true)
    (hv : validDotted r = true) :
    parseImports ("import ".data ++ r) = some [⟨[], pySplit ['.'] r, none⟩] := by
  have hne : r ≠ [] := by
    intro he
    subst he
    exact absurd hv (by decide)
  have htw : ("import ".data ++ r).takeWhile (fun c => c ≠ '#') = "import ".data ++ r := by
    apply List.takeWhile_eq_self_iff.mpr
    intro d hd
    rcases List.mem_append.mp hd with hmem | hmem
    · exact (by decide : ∀ e ∈ "import ".data, decide (e ≠ '#') = true) d hmem
    · exact decide_eq_true (identChar_ne (hch d hmem) (by decide))
  have hstrip : pyStrip ("import ".data ++ r) = "import ".data ++ r := by
    apply pyStrip_eq_self
    · intro c hcx
      rw [show ("import ".data ++ r).head? = some 'i' from rfl] at hcx
      cases hcx
      decide
    · intro c hcx
      rw [List.getLast?_append] at hcx
      cases hg : r.getLast? with
      | none =>
        rw [List.getLast?_eq_getLast r hne] at hg
        cases hg
      | some d =>
        rw [hg] at hcx
        simp at hcx
        subst hcx
        exact identChar_not_space (hch d (mem_of_getLast? hg))
  have hdrop : ("import ".data ++ r).drop 7 = r := by
    rw [show (7 : Nat) = ("import ".data).length from rfl, List.drop_left]

  have hstripr : pyStrip r = r := by
    apply pyStrip_eq_self
    · intro c hcx
      exact identChar_not_space (hch c (by
        cases r with
        | nil => cases hcx
        | cons d t => cases hcx; exact List.mem_cons_self _ _))
    · intro c hcx
      exact identChar_not_space (hch c (mem_of_getLast? hcx))
  have hcomma : pySplit [','] r = [r] :=
    pySplit_of_not_contains _ _
      (containsSeq_single_false ',' r (fun d hd => identChar_ne (hch d hd) (by decide)))
  have hws : splitWs r = [r] :=
    splitWs_token r (fun c hcx => identChar_not_space (hch c hcx)) hne
  have hpre : startsW "import ".data ("import ".data ++ r) = true :=
    List.isPrefixOf_iff_prefix.mpr (List.prefix_append _ _)
  have hemp : ("import ".data ++ r).isEmpty = false := rfl
  have hempr : r.isEmpty = false := by
    cases r with
    | nil => exact absurd rfl hne
    | cons _ _ => rfl
  simp only [parseImports, htw, hstrip, hemp, Bool.false_eq_true, if_false, hpre,
    if_true, hdrop, hstripr, hempr, hcomma, parsePieces, parsePieceImport, hws, hv]

theorem startsW_ne_head (p s : Str) (cp cs : Char) (hp : p.head? = some cp)
    (hs : s.head? = some cs) (hne : cp ≠ cs) : startsW p s = false := by
  cases p with
  | nil => cases hp
  | cons a p' =>
    cases s with
    | nil => cases hs
    | cons b s' =>
      cases hp
      cases hs
      simp only [startsW, List.isPrefixOf]
      rw [beq_eq_false_iff_ne.mpr hne]
      rfl

theorem getLast?_append_ne_nil (A B : Str) (hB : B ≠ []) :
    (A ++ B).getLast? = B.getLast? := by
  rw [List.getLast?_append]
  rw [List.getLast?_eq_getLast B hB]
  rfl

theorem splitWs_cons_space (c : Char) (hc : isPySpace c = true) (W : Str) :
    splitWs (c :: W) = splitWs W := by
  unfold splitWs
  simp [splitAnyWs, hc]

theorem validDotted_ne_nil {t : Str} (h : validDotted t = true) : t ≠ [] := by
  intro he
  subst he
  exact absurd h (by decide)

theorem parseImports_from_two_names (mp x y z : Str)
    (hmp : ∀ d ∈ mp, (d.isAlphanum || d = '_' || d = '.') = true)
    (hvm : validDotted mp = true)
    (hx : validIdent x = true) (hy : validIdent y = true) (hz : validIdent z = true) :
    parseImports ("from ".data ++ (mp ++ (" import ".data
        ++ (x ++ (", ".data ++ (y ++ (" as ".data ++ z)))))))
      = some [⟨pySplit ['.'] mp, [x], none⟩, ⟨pySplit ['.'] mp, [y], some z⟩] := by
  have hxc := validIdent_mem hx
  have hyc := validIdent_mem hy
  have hzc := validIdent_mem hz
  have hnem : mp ≠ [] := validDotted_ne_nil hvm
  have hnex : x ≠ [] := validIdent_ne_nil hx
  have hney : y ≠ [] := validIdent_ne_nil hy
  have hnez : z ≠ [] := validIdent_ne_nil hz
  obtain ⟨m0, mp', hmp'⟩ : ∃ d t, mp = d :: t := by
    cases mp with
    | nil => exact absurd rfl hnem
    | cons d t => exact ⟨d, t, rfl⟩
  obtain ⟨x0, x', hx'⟩ : ∃ d t, x = d :: t := by
    cases x with
    | nil => exact absurd rfl hnex
    | cons d t => exact ⟨d, t, rfl⟩
  obtain ⟨zl, hzl⟩ : ∃ d, z.getLast? = some d :=
    ⟨z.getLast hnez, List.getLast?_eq_getLast z hnez⟩
  have hzl_space : isPySpace zl = false :=
    identChar_not_space (hzc zl (mem_of_getLast? hzl))
  set tailX : Str := x ++ (", ".data ++ (y ++ (" as ".data ++ z))) with htailX
  set R : Str := mp ++ (" import ".data ++ tailX) with hR
  set S : Str := "from ".data ++ R with hS
  have htailX_ne : tailX ≠ [] := by
    rw [htailX, hx']
    simp
  have hlastT : tailX.getLast? = some zl := by
    rw [htailX]
    rw [getLast?_append_ne_nil _ _ (by simp [hnez]),
      getLast?_append_ne_nil _ _ (by simp [hnez]),
      getLast?_append_ne_nil _ _ (by simp [hnez]),
      getLast?_append_ne_nil _ _ hnez]
    exact hzl
  have hlastR : R.getLast? = some zl := by
    rw [hR]
    rw [getLast?_append_ne_nil _ _ (by simp [htailX_ne]),
      getLast?_append_ne_nil _ _ htailX_ne]
    exact hlastT
  have hlastS : S.getLast? = some zl := by
    rw [hS, getLast?_append_ne_nil _ _ (by
      rw [hR, hmp']
      simp)]
    exact hlastR
  have htw : S.takeWhile (fun c => c ≠ '#') = S := by
    apply List.takeWhile_eq_self_iff.mpr
    rw [hS, hR, htailX]
    refine List.forall_mem_append.mpr ⟨by decide,
      List.forall_mem_append.mpr
        ⟨fun d hd => decide_eq_true (identChar_ne (hmp d hd) (by decide)),
      List.forall_mem_append.mpr ⟨by decide,
      List.forall_mem_append.mpr
        ⟨fun d hd => decide_eq_true (identChar_ne (hxc d hd) (by decide)),
      List.forall_mem_append.mpr ⟨by decide,
      List.forall_mem_append.mpr
        ⟨fun d hd => decide_eq_true (identChar_ne (hyc d hd) (by decide)),
      List.forall_mem_append.mpr ⟨by decide,
      fun d hd => decide_eq_true (identChar_ne (hzc d hd) (by decide))⟩⟩⟩⟩⟩⟩⟩
  have hstripS : pyStrip S = S := by
    apply pyStrip_eq_self
    · intro c hcx
      rw [show S.head? = some 'f' from by rw [hS]; rfl] at hcx
      cases hcx
      decide
    · intro c hcx
      rw [hlastS] at hcx
      cases hcx
      exact hzl_space
  have hempS : S.isEmpty = false := by rw [hS]; rfl
  have hpre_imp : startsW "import ".data S = false :=
    startsW_ne_head _ _ 'i' 'f' rfl (by rw [hS]; rfl) (by decide)
  have hpre_from : startsW "from ".data S = true :=
    List.isPrefixOf_iff_prefix.mpr (by rw [hS]; exact List.prefix_append _ _)
  have hdrop5 : S.drop 5 = R := by
    rw [hS, show (5 : Nat) = ("from ".data).length from rfl, List.drop_left]
  have hstripR : pyStrip R = R := by
    apply pyStrip_eq_self
    · intro c hcx
      rw [show R.head? = some m0 from by rw [hR, hmp']; rfl] at hcx
      cases hcx
      exact identChar_not_space (hmp m0 (by rw [hmp']; exact List.mem_cons_self _ _))
    · intro c hcx
      rw [hlastR] at hcx
      cases hcx
      exact hzl_space
  have hRform : R = mp ++ ' ' :: ("import ".data ++ tailX) := by
    rw [hR]
    rfl
  have hwsR : splitWs R = mp :: splitWs ("import ".data ++ tailX) := by
    rw [hRform]
    exact splitWs_token_append _ _ ' ' (by decide)
      (fun d hd => identChar_not_space (hmp d hd)) hnem
  have hdropm : R.drop mp.length = ' ' :: ("import ".data ++ tailX) := by
    rw [hRform, List.drop_left]
  have hstripT : pyStrip tailX = tailX := by
    apply pyStrip_eq_self
    · intro c hcx
      rw [show tailX.head? = some x0 from by rw [htailX, hx']; rfl] at hcx
      cases hcx
      exact identChar_not_space (hxc x0 (by rw [hx']; exact List.mem_cons_self _ _))
    · intro c hcx
      rw [hlastT] at hcx
      cases hcx
      exact hzl_space
  have hstrip_after : pyStrip (R.drop mp.length) = "import ".data ++ tailX := by
    rw [hdropm, pyStrip_cons_space ' ' (by decide)]
    apply pyStrip_eq_self
    · intro c hcx
      rw [show ("import ".data ++ tailX).head? = some 'i' from rfl] at hcx
      cases hcx
      decide
    · intro c hcx
      rw [getLast?_append_ne_nil _ _ htailX_ne, hlastT] at hcx
      cases hcx
      exact hzl_space
  have hpre_imp2 : startsW "import ".data ("import ".data ++ tailX) = true :=
    List.isPrefixOf_iff_prefix.mpr (List.prefix_append _ _)
  have hdrop7 : ("import ".data ++ tailX).drop 7 = tailX := by
    rw [show (7 : Nat) = ("import ".data).length from rfl, List.drop_left]
  have hTform : tailX = x ++ ',' :: (' ' :: (y ++ ' ' :: ("as".data ++ ' ' :: z))) := by
    rw [htailX]
    rfl
  have hsplitC : pySplit [','] tailX
      = x :: [' ' :: (y ++ ' ' :: ("as".data ++ ' ' :: z))] := by
    rw [hTform]
    rw [pySplit_char_append ',' x _ (fun d hd => identChar_ne (hxc d hd) (by decide))]
    congr 1
    apply pySplit_of_not_contains
    apply containsSeq_single_false
    intro d hd
    rcases List.mem_cons.mp hd with h | h
    · subst h; decide
    · rcases List.mem_append.mp h with h2 | h2
      · exact identChar_ne (hyc d h2) (by decide)
      · rcases List.mem_cons.mp h2 with h3 | h3
        · subst h3; decide
        · rcases List.mem_append.mp h3 with h4 | h4
          · exact (by decide : ∀ e ∈ "as".data, e ≠ ',') d h4
          · rcases List.mem_cons.mp h4 with h5 | h5
            · subst h5; decide
            · exact identChar_ne (hzc d h5) (by decide)
  have hwx : splitWs x = [x] :=
    splitWs_token x (fun d hd => identChar_not_space (hxc d hd)) hnex
  have hwp2 : splitWs (' ' :: (y ++ ' ' :: ("as".data ++ ' ' :: z)))
      = [y, "as".data, z] := by
    rw [splitWs_cons_space ' ' (by decide)]
    rw [splitWs_token_append _ _ ' ' (by decide)
      (fun d hd => identChar_not_space (hyc d hd)) hney]
    rw [splitWs_token_append _ _ ' ' (by decide) (by decide) (by decide)]
    rw [splitWs_token z (fun d hd => identChar_not_space (hzc d hd)) hnez]
  have hTempty : tailX.isEmpty = false := by
    rw [htailX, hx']
    rfl
  have hThead : tailX.head? = some x0 := by rw [htailX, hx']; rfl
  simp only [parseImports, htw, hstripS, hempS, Bool.false_eq_true, if_false,
    hpre_imp, hpre_from, if_true, hdrop5, hstripR, hwsR, hvm, hstrip_after,
    hpre_imp2, hdrop7, hstripT, parseFromNames, hTempty]
  rw [if_neg (by
    intro hand
    rw [hThead] at hand
    have hq : x0 = '(' := by
      have := hand.1
      cases this
      rfl
    have hx0 : (x0.isAlphanum || x0 = '_' || x0 = '.') = true :=
      hxc x0 (by rw [hx']; exact List.mem_cons_self _ _)
    subst hq
    exact absurd hx0 (by decide))]
  rw [hsplitC]
  simp only [parsePieces, parsePieceFrom, hwx, hwp2]
  rw [if_pos (by simp [hx])]
  rw [if_pos (by exact ⟨trivial, hy, hz⟩)]


theorem validIdent_mem_word {t : Str} (h : validIdent t = true) :
    ∀ d ∈ t, (d.isAlphanum || d = '_') = true := by
  intro d hd
  cases t with
  | nil => cases hd
  | cons c rest =>
    simp only [validIdent, Bool.and_eq_true] at h
    rcases List.mem_cons.mp hd with he | he
    · subst he
      rcases Bool.or_eq_true_iff.mp h.1 with h1 | h1
      · simp [Char.isAlphanum, h1]
      · simp [h1]
    · exact List.all_eq_true.mp h.2 d he

theorem wordChar_ne {d : Char} (h : (d.isAlphanum || d = '_') = true)
    {ch : Char} (hch : (ch.isAlphanum || ch = '_') = false) : d ≠ ch := by
  intro he
  subst he
  rw [h] at hch
  cases hch

/-- C6: the reference extractor on the two directive shapes: an
`import a.b.c` directive yields exactly one clause whose joined path is
`a.b.c` with no separate imported name and whose effective local name
(per `import_statement_to_aliases`) is the last segment `c`; a
`from a.b import x, y as z` directive yields one clause per imported
name, each with path `a.b` and its own alias (`x` unaliased, `y` aliased
to `z`). -/
theorem c6_extractor_shapes (a b c x y z : Str)
    (ha : validIdent a = true) (hb : validIdent b = true) (hc : validIdent c = true)
    (hx : validIdent x = true) (hy : validIdent y = true) (hz : validIdent z = true) :
    parseImports ("import ".data ++ (a ++ '.' :: (b ++ '.' :: c)))
      = some [⟨[], [a, b, c], none⟩] ∧
    import_statement_to_aliases ("import ".data ++ (a ++ '.' :: (b ++ '.' :: c))) a
      = some [c ++ (" = ".data ++ (a ++ '.' :: (b ++ '.' :: c)))] ∧
    parseImports ("from ".data ++ ((a ++ '.' :: b) ++ (" import ".data
        ++ (x ++ (", ".data ++ (y ++ (" as ".data ++ z)))))))
      = some [⟨[a, b], [x], none⟩, ⟨[a, b], [y], some z⟩] ∧
    import_statement_to_aliases ("from ".data ++ ((a ++ '.' :: b) ++ (" import ".data
        ++ (x ++ (", ".data ++ (y ++ (" as ".data ++ z))))))) a
      = some [x ++ (" = ".data ++ (a ++ '.' :: (b ++ '.' :: x))),
              z ++ (" = ".data ++ (a ++ '.' :: (b ++ '.' :: y)))] := by
  have hac := validIdent_mem ha
  have hbc := validIdent_mem hb
  have hcc := validIdent_mem hc
  have haw := validIdent_mem_word ha
  have hbw := validIdent_mem_word hb
  have hcw := validIdent_mem_word hc
  have hr3 : ∀ d ∈ a ++ '.' :: (b ++ '.' :: c),
      (d.isAlphanum || d = '_' || d = '.') = true := by
    intro d hd
    rcases List.mem_append.mp hd with h | h
    · exact hac d h
    · rcases List.mem_cons.mp h with h | h
      · subst h; decide
      · rcases List.mem_append.mp h with h | h
        · exact hbc d h
        · rcases List.mem_cons.mp h with h | h
          · subst h; decide
          · exact hcc d h
  have hr2 : ∀ d ∈ a ++ '.' :: b, (d.isAlphanum || d = '_' || d = '.') = true := by
    intro d hd
    rcases List.mem_append.mp hd with h | h
    · exact hac d h
    · rcases List.mem_cons.mp h with h | h
      · subst h; decide
      · exact hbc d h
  have hsplit3 : pySplit ['.'] (a ++ '.' :: (b ++ '.' :: c)) = [a, b, c] := by
    rw [pySplit_char_append '.' a _ (fun d hd => wordChar_ne (haw d hd) (by decide))]
    rw [pySplit_char_append '.' b _ (fun d hd => wordChar_ne (hbw d hd) (by decide))]
    rw [pySplit_of_not_contains _ _
      (containsSeq_single_false '.' c (fun d hd => wordChar_ne (hcw d hd) (by decide)))]
  have hsplit2 : pySplit ['.'] (a ++ '.' :: b) = [a, b] := by
    rw [pySplit_char_append '.' a _ (fun d hd => wordChar_ne (haw d hd) (by decide))]
    rw [pySplit_of_not_contains _ _
      (containsSeq_single_false '.' b (fun d hd => wordChar_ne (hbw d hd) (by decide)))]
  have hvd3 : validDotted (a ++ '.' :: (b ++ '.' :: c)) = true := by
    unfold validDotted
    rw [hsplit3]
    simp [ha, hb, hc]
  have hvd2 : validDotted (a ++ '.' :: b) = true := by
    unfold validDotted
    rw [hsplit2]
    simp [ha, hb]
  have h1 := parseImports_import_dotted (a ++ '.' :: (b ++ '.' :: c)) hr3 hvd3
  rw [hsplit3] at h1
  have h3 := parseImports_from_two_names (a ++ '.' :: b) x y z hr2 hvd2 hx hy hz
  rw [hsplit2] at h3
  have h3' : parseImports ("from ".data ++ ((a ++ '.' :: b) ++ (" import ".data
      ++ (x ++ (", ".data ++ (y ++ (" as ".data ++ z)))))))
      = some [⟨[a, b], [x], none⟩, ⟨[a, b], [y], some z⟩] := h3
  refine ⟨h1, ?_, h3', ?_⟩
  · unfold import_statement_to_aliases
    rw [h1]
    simp [List.filterMap_cons, dotted₃, List.append_assoc]
  · unfold import_statement_to_aliases
    rw [h3']
    simp [List.filterMap_cons, dotted₃, List.append_assoc]

/-- Witness for C6 at concrete identifiers. -/
theorem c6_extractor_shapes_witness :
    parseImports ("import ".data ++ ("aa".data ++ '.' :: ("bb".data ++ '.' :: "cc".data)))
      = some [⟨[], ["aa".data, "bb".data, "cc".data], none⟩] ∧
    import_statement_to_aliases
        ("import ".data ++ ("aa".data ++ '.' :: ("bb".data ++ '.' :: "cc".data))) "aa".data
      = some ["cc".data ++ (" = ".data
          ++ ("aa".data ++ '.' :: ("bb".data ++ '.' :: "cc".data)))] ∧
    parseImports ("from ".data ++ (("aa".data ++ '.' :: "bb".data) ++ (" import ".data
        ++ ("xx".data ++ (", ".data ++ ("yy".data ++ (" as ".data ++ "zz".data)))))))
      = some [⟨["aa".data, "bb".data], ["xx".data], none⟩,
              ⟨["aa".data, "bb".data], ["yy".data], some "zz".data⟩] ∧
    import_statement_to_aliases ("from ".data ++ (("aa".data ++ '.' :: "bb".data)
        ++ (" import ".data ++ ("xx".data ++ (", ".data
          ++ ("yy".data ++ (" as ".data ++ "zz".data))))))) "aa".data
      = some ["xx".data ++ (" = ".data
            ++ ("aa".data ++ '.' :: ("bb".data ++ '.' :: "xx".data))),
          "zz".data ++ (" = ".data
            ++ ("aa".data ++ '.' :: ("bb".data ++ '.' :: "yy".data)))] :=
  c6_extractor_shapes "aa".data "bb".data "cc".data "xx".data "yy".data "zz".data
    (by decide) (by decide) (by decide) (by decide) (by decide) (by decide)

/-! ### The forward line loop -/

/-- C7: a line with the reserved host-API prefix `import system.` is only
commented out — the replacement dict is returned untouched, whatever it
was — while a non-reserved matched directive line is commented out and
contributes its `localName -> fullyQualifiedPath` entries through
`recordReplacements`. -/
theorem c7_reserved_root :
    (∀ (mods : List Str) (mli : Option Str) (reps : List (Str × Str)) (l : Str),
      startsW sysPrefix l = true →
      fwdLines mods mli reps [l] = .ok (["# ".data ++ pyStrip l], reps)) ∧
    (∀ (mods : List Str) (reps : List (Str × Str)) (l : Str) (imps : List PyImport),
      startsW sysPrefix l = false →
      is_import_statement (pyStrip l) mods = true →
      endsBackslash l = false →
      parseImports (pyStrip l) = some imps →
      fwdLines mods none reps [l]
        = .ok (["# ".data ++ pyStrip l], recordReplacements mods imps reps)) := by
  constructor
  · intro mods mli reps l h
    simp only [fwdLines, h, if_true]
  · intro mods reps l imps h1 h2 h3 h4
    simp only [fwdLines, h1, Bool.false_eq_true, if_false, fwdCore, h2, if_true, h3, h4]
    simp

/-- Witness for C7: a concrete reserved line (with a non-trivial incoming
dict) and a concrete matched directive line. -/
theorem c7_reserved_root_witness :
    fwdLines ["pkg".data] none [("q".data, "pkg.q".data)] ["import system.util".data]
      = .ok (["# import system.util".data], [("q".data, "pkg.q".data)]) ∧
    fwdLines ["pkg".data] none [] ["from pkg import foo".data]
      = .ok (["# from pkg import foo".data],
          recordReplacements ["pkg".data] [⟨["pkg".data], ["foo".data], none⟩] []) :=
  ⟨c7_reserved_root.1 ["pkg".data] none [("q".data, "pkg.q".data)]
      "import system.util".data (by decide),
   c7_reserved_root.2 ["pkg".data] [] "from pkg import foo".data
      [⟨["pkg".data], ["foo".data], none⟩] (by decide) (by decide) (by decide)
      (by decide)⟩

theorem fwdLines_no_directives (mods : List Str) : ∀ (ls : List Str)
    (reps : List (Str × Str)),
    (∀ l ∈ ls, startsW sysPrefix l = false
      ∧ is_import_statement (pyStrip l) mods = false) →
    fwdLines mods none reps ls = .ok (ls, reps) := by
  intro ls
  induction ls with
  | nil => intro reps _; rfl
  | cons l ls' ih =>
    intro reps h
    have hl := h l (List.mem_cons_self _ _)
    simp only [fwdLines, hl.1, Bool.false_eq_true, if_false, fwdCore, hl.2]
    rw [ih reps (fun d hd => h d (List.mem_cons_of_mem _ hd))]
    rfl

theorem splitLines_ne_nil (t : Str) : splitLines t ≠ [] :=
  pySplitGo_ne_nil ['\n'] 0 t

theorem joinLines_cons (x : Str) (L : List Str) (h : L ≠ []) :
    joinLines (x :: L) = x ++ '\n' :: joinLines L := by
  cases L with
  | nil => exact absurd rfl h
  | cons y t =>
    unfold joinLines
    rw [intercalate_cons₂]
    simp [List.append_assoc]

theorem replace_reference_comment_cons (cl t find repl : Str)
    (hc : commentLine cl = true) (ht : containsSeq tq cl = false)
    (hn : ∀ d ∈ cl, d ≠ '\n') :
    replace_reference (cl ++ '\n' :: t) find repl
      = cl ++ '\n' :: replace_reference t find repl := by
  unfold replace_reference
  rw [show splitLines (cl ++ '\n' :: t) = cl :: splitLines t from
    pySplit_char_append '\n' cl t hn]
  have hline : replLine find repl false cl = cl := by
    unfold replLine
    rw [if_neg (by simp), if_neg (by simp [hc, ht]), if_pos hc]
  have hst : lineNextState false cl = false := by
    unfold lineNextState
    rw [if_neg (by simp), if_neg (by simp [hc, ht])]
  simp only [replLinesGo, hline, hst]
  apply joinLines_cons
  cases hx : splitLines t with
  | nil => exact absurd hx (splitLines_ne_nil t)
  | cons y ys => simp [replLinesGo]

/-- C2: for the input line `from pkg.mod import foo, bar as baz` with
root-module set `[pkg]`, the forward pass comments the directive out and
records exactly the alias entries `foo -> pkg.mod.foo` and
`baz -> pkg.mod.bar`; on any following text containing no further
directives, the whole-file result is the commented directive followed by
the text with every whole-word plain-code `foo` rewritten to
`pkg.mod.foo` and every `baz` to `pkg.mod.bar` (string-literal and
comment spans being skipped by `replace_reference`). -/
theorem c2_forward_example (rest : Str)
    (h : ∀ l ∈ splitLines rest, startsW sysPrefix l = false
      ∧ is_import_statement (pyStrip l) ["pkg".data] = false) :
    fwdLines ["pkg".data] none []
        (splitLines ("from pkg.mod import foo, bar as baz\n".data ++ rest))
      = .ok ("# from pkg.mod import foo, bar as baz".data :: splitLines rest,
          [("foo".data, "pkg.mod.foo".data), ("baz".data, "pkg.mod.bar".data)]) ∧
    replace_import_statements_with_direct_references
        ("from pkg.mod import foo, bar as baz\n".data ++ rest) ["pkg".data]
      = .ok ("# from pkg.mod import foo, bar as baz\n".data
          ++ replace_reference
              (replace_reference rest "foo".data "pkg.mod.foo".data)
              "baz".data "pkg.mod.bar".data) := by
  have hsplit : splitLines ("from pkg.mod import foo, bar as baz\n".data ++ rest)
      = "from pkg.mod import foo, bar as baz".data :: splitLines rest := by
    rw [show "from pkg.mod import foo, bar as baz\n".data ++ rest
        = "from pkg.mod import foo, bar as baz".data ++ '\n' :: rest from rfl]
    exact pySplit_char_append '\n' _ _ (by decide)
  have hcore : fwdCore ["pkg".data] [] "from pkg.mod import foo, bar as baz".data
      = .ok (["# from pkg.mod import foo, bar as baz".data], none,
          [("foo".data, "pkg.mod.foo".data), ("baz".data, "pkg.mod.bar".data)]) := rfl
  have h1 : fwdLines ["pkg".data] none []
      (splitLines ("from pkg.mod import foo, bar as baz\n".data ++ rest))
      = .ok ("# from pkg.mod import foo, bar as baz".data :: splitLines rest,
          [("foo".data, "pkg.mod.foo".data), ("baz".data, "pkg.mod.bar".data)]) := by
    rw [hsplit]
    simp only [fwdLines,
      show startsW sysPrefix "from pkg.mod import foo, bar as baz".data = false
        from rfl,
      Bool.false_eq_true, if_false, hcore]
    rw [fwdLines_no_directives ["pkg".data] (splitLines rest) _ h]
    rfl
  refine ⟨h1, ?_⟩
  unfold replace_import_statements_with_direct_references
  rw [h1]
  simp only [List.foldl]
  have hjoin : joinLines ("# from pkg.mod import foo, bar as baz".data
      :: splitLines rest)
      = "# from pkg.mod import foo, bar as baz".data ++ '\n' :: rest := by
    rw [joinLines_cons _ _ (splitLines_ne_nil rest), joinLines_splitLines]
  rw [hjoin]
  rw [replace_reference_comment_cons _ _ _ _ (by decide) (by decide) (by decide)]
  rw [replace_reference_comment_cons _ _ _ _ (by decide) (by decide) (by decide)]
  rfl

/-- Witness for C2 at a concrete tail containing plain-code and quoted
occurrences of both names. -/
theorem c2_forward_example_witness :
    fwdLines ["pkg".data] none []
        (splitLines ("from pkg.mod import foo, bar as baz\n".data
          ++ "foo(baz)\ns = 'foo baz'".data))
      = .ok ("# from pkg.mod import foo, bar as baz".data
            :: splitLines "foo(baz)\ns = 'foo baz'".data,
          [("foo".data, "pkg.mod.foo".data), ("baz".data, "pkg.mod.bar".data)]) ∧
    replace_import_statements_with_direct_references
        ("from pkg.mod import foo, bar as baz\n".data
          ++ "foo(baz)\ns = 'foo baz'".data) ["pkg".data]
      = .ok ("# from pkg.mod import foo, bar as baz\n".data
          ++ replace_reference
              (replace_reference "foo(baz)\ns = 'foo baz'".data
                "foo".data "pkg.mod.foo".data)
              "baz".data "pkg.mod.bar".data) :=
  c2_forward_example "foo(baz)\ns = 'foo baz'".data (by decide)

/-! ### Round trip, error propagation and idempotence -/

/-- C1 (code bug): the inverse per-file transform is not a left inverse
of the forward one, even on the simplest directive-plus-use file.  The
forward pass rewrites `foo()` to `pkg.mod.foo()`; the inverse pass
uncomments the directive but rebuilds its replacement dict from
`get_imports(line.strip())` — the still-commented line (build.py line
389) — which parses as a comment with no import nodes, so no
substitution is ever reversed and `pkg.mod.foo()` survives. -/
theorem c1_round_trip_bug :
    forwardFileText "from pkg.mod import foo\nfoo()".data ["pkg".data] true 4
      = .ok "# from pkg.mod import foo\npkg.mod.foo()".data ∧
    reverseFileText "# from pkg.mod import foo\npkg.mod.foo()".data ["pkg".data] true 4
      = .ok "from pkg.mod import foo\npkg.mod.foo()".data ∧
    "from pkg.mod import foo\npkg.mod.foo()".data
      ≠ "from pkg.mod import foo\nfoo()".data :=
  ⟨rfl, rfl, by decide⟩

/-- C8 counterexample: a malformed directive in the first file aborts the
whole batch — the well-formed later file is never processed, so the
failure is not confined to the file being processed. -/
theorem c8_batch_cex :
    buildBatch ["pkg".data] true 4
      [("bad.py".data, "from pkg import (".data), ("later.py".data, "y = 2".data)]
      = ([], some "SyntaxError: invalid syntax: bad.py".data) := rfl

/-- C8 (amended): a malformed directive fails the file with an error
carrying the root cause and the offending path, and the failure aborts
the remainder of the batch: outputs of files processed before it are
kept, files after it are not processed. -/
theorem c8_error_propagation (pGood cGood pBad cBad oGood cause : Str)
    (mods : List Str) (c2t : Bool) (n : Nat) (rest : List (Str × Str))
    (hg : process_py_file pGood cGood mods c2t n = .ok oGood)
    (hb : forwardFileText cBad mods c2t n = .error cause) :
    process_py_file pBad cBad mods c2t n = .error (cause ++ ": ".data ++ pBad) ∧
    List.IsInfix pBad (cause ++ ": ".data ++ pBad) ∧
    List.IsInfix cause (cause ++ ": ".data ++ pBad) ∧
    buildBatch mods c2t n ((pGood, cGood) :: (pBad, cBad) :: rest)
      = ([(pGood, oGood)], some (cause ++ ": ".data ++ pBad)) := by
  have hpb : process_py_file pBad cBad mods c2t n
      = .error (cause ++ ": ".data ++ pBad) := by
    unfold process_py_file
    rw [hb]
  refine ⟨hpb, ?_, ?_, ?_⟩
  · exact ⟨cause ++ ": ".data, [], by simp⟩
  · exact ⟨[], ": ".data ++ pBad, by simp [List.append_assoc]⟩
  · simp only [buildBatch, hg, hpb]

/-- Witness for C8 (amended) on a concrete two-file batch. -/
theorem c8_error_propagation_witness :
    process_py_file "bad.py".data "from pkg import (".data ["pkg".data] true 4
      = .error ("SyntaxError: invalid syntax".data ++ ": ".data ++ "bad.py".data) ∧
    List.IsInfix "bad.py".data
      ("SyntaxError: invalid syntax".data ++ ": ".data ++ "bad.py".data) ∧
    List.IsInfix "SyntaxError: invalid syntax".data
      ("SyntaxError: invalid syntax".data ++ ": ".data ++ "bad.py".data) ∧
    buildBatch ["pkg".data] true 4
      [("good.py".data, "x = 1".data), ("bad.py".data, "from pkg import (".data)]
      = ([("good.py".data, "x = 1".data)],
          some ("SyntaxError: invalid syntax".data ++ ": ".data ++ "bad.py".data)) :=
  c8_error_propagation "good.py".data "x = 1".data "bad.py".data
    "from pkg import (".data "x = 1".data "SyntaxError: invalid syntax".data
    ["pkg".data] true 4 [] rfl rfl

/-! ### Idempotence of the forward transform -/

theorem pySplit_nil_sep (s : Str) : pySplitGo [] 0 s = [s] := by
  induction s with
  | nil => rfl
  | cons c rest ih =>
    simp only [pySplitGo]
    rw [if_neg (by simp)]
    rw [ih]
    rfl

theorem pyReplace_of_not_contains (old new s : Str)
    (h : containsSeq old s = false) : pyReplace old new s = s := by
  unfold pyReplace
  rw [pySplit_of_not_contains old s h]
  exact intercalate_singleton new s

theorem pyReplaceOne_of_not_contains (old new s : Str)
    (h : containsSeq old s = false) : pyReplaceOne old new s = s := by
  unfold pyReplaceOne
  rw [pySplit_of_not_contains old s h]

theorem pySplit_head_prefixes (sep : Str) : ∀ (s : Str) {h : Str} {t : List Str},
    pySplitGo sep 0 s = h :: t → h <+: s := by
  intro s
  induction s with
  | nil =>
    intro h t he
    simp only [pySplitGo] at he
    cases he
    exact List.nil_prefix
  | cons c rest ih =>
    intro h t he
    simp only [pySplitGo] at he
    split at he
    · cases he
      exact List.nil_prefix
    · cases hx : pySplitGo sep 0 rest with
      | nil => exact absurd hx (pySplitGo_ne_nil sep 0 rest)
      | cons h' t' =>
        rw [hx] at he
        simp only [consHead] at he
        cases he
        exact List.cons_prefix_cons.mpr ⟨rfl, ih hx⟩

theorem pySplit_pieces_no_occ (sep : Str) (hsep : sep ≠ []) (s : Str) :
    ∀ p ∈ pySplitGo sep 0 s, containsSeq sep p = false := by
  have H : ∀ (n : Nat) (s : Str), s.length ≤ n →
      ∀ p ∈ pySplitGo sep 0 s, containsSeq sep p = false := by
    intro n
    induction n with
    | zero =>
      intro s hs p hp
      have : s = [] := List.eq_nil_of_length_eq_zero (Nat.le_zero.mp hs)
      subst this
      simp only [pySplitGo] at hp
      rcases List.mem_singleton.mp hp with rfl
      cases sep with
      | nil => exact absurd rfl hsep
      | cons a t => rfl
    | succ n ih =>
      intro s hs p hp
      cases s with
      | nil =>
        simp only [pySplitGo] at hp
        rcases List.mem_singleton.mp hp with rfl
        cases sep with
        | nil => exact absurd rfl hsep
        | cons a t => rfl
      | cons c rest =>
        simp only [pySplitGo] at hp
        split at hp
        · rcases List.mem_cons.mp hp with rfl | hp2
          · cases sep with
            | nil => exact absurd rfl hsep
            | cons a t => rfl
          · rw [pySplitGo_skip] at hp2
            have hlen : (rest.drop (sep.length - 1)).length ≤ n := by
              have := List.length_drop (sep.length - 1) rest
              have hr : rest.length ≤ n := by simpa using Nat.le_of_succ_le_succ hs
              omega
            exact ih _ hlen p hp2
        · rename_i hcond
          have hnp : sep.isPrefixOf (c :: rest) = false := by
            cases hq : sep.isPrefixOf (c :: rest) with
            | false => rfl
            | true =>
              exfalso
              apply hcond
              rw [hq]
              cases sep with
              | nil => exact absurd rfl hsep
              | cons a t => rfl
          have hr : rest.length ≤ n := by simpa using Nat.le_of_succ_le_succ hs
          cases hx : pySplitGo sep 0 rest with
          | nil => exact absurd hx (pySplitGo_ne_nil sep 0 rest)
          | cons h' t' =>
            rw [hx] at hp
            simp only [consHead] at hp
            rcases List.mem_cons.mp hp with rfl | hp2
            · simp only [containsSeq, Bool.or_eq_false_iff]
              constructor
              · cases hq : sep.isPrefixOf (c :: h') with
                | false => rfl
                | true =>
                  exfalso
                  have hpre : sep <+: c :: h' := List.isPrefixOf_iff_prefix.mp hq
                  have hh : h' <+: rest := pySplit_head_prefixes sep rest hx
                  have : sep <+: c :: rest :=
                    hpre.trans (List.cons_prefix_cons.mpr ⟨rfl, hh⟩)
                  rw [List.isPrefixOf_iff_prefix.mpr this] at hnp
                  cases hnp
              · have := ih rest hr h' (by rw [hx]; exact List.mem_cons_self _ _)
                cases hcs : containsSeq sep h' with
                | false => rfl
                | true => exact absurd hcs (by rw [this]; simp)
            · exact ih rest hr p (by rw [hx]; exact List.mem_cons_of_mem _ hp2)
  exact H s.length s le_rfl

theorem noOcc_append_tab (n : Nat) (p M : Str)
    (hp : containsSeq (spaces (n + 1)) p = false)
    (hM : containsSeq (spaces (n + 1)) M = false) :
    containsSeq (spaces (n + 1)) (p ++ '\t' :: M) = false := by
  induction p with
  | nil =>
    simp only [List.nil_append, containsSeq, Bool.or_eq_false_iff]
    exact ⟨rfl, hM⟩
  | cons c p' ih =>
    simp only [containsSeq, Bool.or_eq_false_iff] at hp
    simp only [List.cons_append, containsSeq, Bool.or_eq_false_iff]
    refine ⟨?_, ih hp.2⟩
    cases hq : (spaces (n + 1)).isPrefixOf (c :: (p' ++ '\t' :: M)) with
    | false => rfl
    | true =>
      exfalso
      have hpre : spaces (n + 1) <+: (c :: p') ++ ('\t' :: M) := by
        simpa using List.isPrefixOf_iff_prefix.mp hq
      have hcp : (c :: p') <+: (c :: p') ++ ('\t' :: M) := List.prefix_append _ _
      rcases List.prefix_or_prefix_of_prefix hpre hcp with h1 | h1
      · rw [List.isPrefixOf_iff_prefix.mpr h1] at hp
        exact absurd hp.1 (by simp)
      · obtain ⟨ext, hext⟩ := h1
        cases ext with
        | nil =>
          rw [List.append_nil] at hext
          have hself : (c :: p').isPrefixOf (c :: p') = true :=
            List.isPrefixOf_iff_prefix.mpr (List.prefix_refl _)
          rw [← hext] at hp
          simp [hself] at hp
        | cons e ext' =>
          have he : e = '\t' := by
            rw [← hext] at hpre
            have h2 : e = '\t' ∧ ext' <+: M := by
              simpa [List.append_assoc] using hpre
            exact h2.1
          have hmem : e ∈ spaces (n + 1) := by
            rw [← hext]
            exact List.mem_append_right _ (List.mem_cons_self _ _)
          have := List.eq_of_mem_replicate hmem
          rw [he] at this
          cases this

theorem noOcc_intercalate_tab (n : Nat) : ∀ (pieces : List Str),
    (∀ p ∈ pieces, containsSeq (spaces (n + 1)) p = false) →
    containsSeq (spaces (n + 1)) (List.intercalate ['\t'] pieces) = false := by
  intro pieces
  induction pieces with
  | nil =>
    intro _
    rw [show List.intercalate ['\t'] ([] : List Str) = [] from rfl]
    rfl
  | cons p rest ih =>
    intro h
    cases rest with
    | nil =>
      rw [intercalate_singleton]
      exact h p (List.mem_cons_self _ _)
    | cons q rest' =>
      rw [intercalate_cons₂]
      have hM := ih (fun r hr => h r (List.mem_cons_of_mem _ hr))
      have hp := h p (List.mem_cons_self _ _)
      simpa [List.append_assoc] using noOcc_append_tab n p _ hp hM

theorem pyReplace_tab_idem (n : Nat) (s : Str) :
    pyReplace (spaces n) ['\t'] (pyReplace (spaces n) ['\t'] s)
      = pyReplace (spaces n) ['\t'] s := by
  cases n with
  | zero =>
    have h0 : ∀ t : Str, pyReplace (spaces 0) ['\t'] t = t := by
      intro t
      unfold pyReplace pySplit
      rw [show spaces 0 = [] from rfl, pySplit_nil_sep]
      exact intercalate_singleton _ _
    rw [h0, h0]
  | succ n =>
    have hno : containsSeq (spaces (n + 1)) (pyReplace (spaces (n + 1)) ['\t'] s)
        = false := by
      unfold pyReplace
      exact noOcc_intercalate_tab n _
        (pySplit_pieces_no_occ (spaces (n + 1)) (by simp [spaces]) s)
    exact pyReplace_of_not_contains _ _ _ hno

theorem replace_imports_id (U : Str) (mods : List Str)
    (h : ∀ l ∈ splitLines U, startsW sysPrefix l = false
      ∧ is_import_statement (pyStrip l) mods = false) :
    replace_import_statements_with_direct_references U mods = .ok U := by
  unfold replace_import_statements_with_direct_references
  rw [fwdLines_no_directives mods (splitLines U) [] h]
  simp only [List.foldl]
  rw [joinLines_splitLines]

/-- C4 counterexample: with two coding-declaration markers in the input,
the forward transform rewrites one marker per pass (`str.replace` with
count 1), so running it on its own output mutates the text again. -/
theorem c4_idempotence_cex :
    forwardFileText "# coding=utf-8\n# coding=utf-8".data ["pkg".data] true 4
      = .ok "# CODING=utf-8\n# coding=utf-8".data ∧
    forwardFileText "# CODING=utf-8\n# coding=utf-8".data ["pkg".data] true 4
      = .ok "# CODING=utf-8\n# CODING=utf-8".data ∧
    "# CODING=utf-8\n# CODING=utf-8".data ≠ "# CODING=utf-8\n# coding=utf-8".data :=
  ⟨rfl, rfl, by decide⟩

/-- C4 (amended): the forward per-file transform is idempotent on every
input whose forward output contains no further `# coding=` marker and no
remaining matched directive line (every directive line is already
commented out and is recognized and skipped): re-running the transform on
such output changes nothing — the space-to-tab folding being idempotent
unconditionally. -/
theorem c4_idempotence_amended (code U : Str) (mods : List Str) (c2t : Bool)
    (n : Nat)
    (hU : forwardFileText code mods c2t n = .ok U)
    (hcod : containsSeq "# coding=".data U = false)
    (hlines : ∀ l ∈ splitLines U, startsW sysPrefix l = false
      ∧ is_import_statement (pyStrip l) mods = false) :
    forwardFileText U mods c2t n = .ok U := by
  unfold forwardFileText
  rw [show codingFwd U = U from pyReplaceOne_of_not_contains _ _ _ hcod]
  rw [replace_imports_id U mods hlines]
  cases c2t with
  | false => rfl
  | true =>
    show Except.ok (pyReplace (spaces n) ['\t'] U) = Except.ok U
    unfold forwardFileText at hU
    cases hx : replace_import_statements_with_direct_references (codingFwd code) mods with
    | error e => rw [hx] at hU; cases hU
    | ok V =>
      rw [hx] at hU
      simp only [if_true] at hU
      have hUV : U = pyReplace (spaces n) ['\t'] V := by
        cases hU
        rfl
      rw [hUV, pyReplace_tab_idem n V]

/-- Witness for C4 (amended) at a concrete file whose forward output has
no remaining coding marker or directive line. -/
theorem c4_idempotence_amended_witness :
    forwardFileText "x = 1\n# from pkg import foo\npkg.foo()".data ["pkg".data] true 4
      = .ok "x = 1\n# from pkg import foo\npkg.foo()".data :=
  c4_idempotence_amended "x = 1\nfrom pkg import foo\nfoo()".data
    "x = 1\n# from pkg import foo\npkg.foo()".data ["pkg".data] true 4
    rfl (by decide) (by decide)

end IgnitionBuild
